import Mathlib

/-!
Verification of the streak-calculation core of `generate_svg.py`.

The program derives a "current streak" and a "longest streak" from a sparse
daily contribution series (a Python dict mapping `datetime.date` to an
integer count).  Calendar dates are modelled as integer day numbers, so
`date + timedelta(days = 1)` becomes `+ 1`; a series is the list of items of
the dict.  The three pieces of source logic embedded here are

* `calculate_streak_ending_on_date` (lines 93-101): a backward `while` loop,
  modelled by the fuel recursion `streakWalk` (the fuel is one more than the
  number of positive-count entries, which is proved to be enough);
* `find_longest_streak` (lines 103-137): sort the positive-count dates and
  scan once, modelled by `scanStreaks`;
* the current-streak block (lines 144-155), modelled by `current_streak`
  with the reference date `today` as an explicit argument.
-/

namespace GitTracker

/-- The items of the Python dict `daily_contributions`: one
`(date, count)` pair per stored calendar day. -/
abbrev Series := List (Int × Int)

/-- `contributions_data.get(current_date, 0)`: the count stored for a date,
`0` when the date is absent. -/
def Series.get (s : Series) (d : Int) : Int :=
  match s.find? (fun p => p.1 = d) with
  | some p => p.2
  | none => 0

/-- A Python dict stores at most one entry per key. -/
def Series.WellFormed (s : Series) : Prop := (s.map Prod.fst).Nodup

instance (s : Series) : Decidable (Series.WellFormed s) :=
  inferInstanceAs (Decidable (s.map Prod.fst).Nodup)

/-- The backward `while contributions_data.get(current_date, 0) > 0` loop of
`calculate_streak_ending_on_date`, with explicit fuel standing in for the
unbounded loop.  `streakWalk_spec` below shows the result is the number of
steps to the first non-positive date whenever the fuel exceeds it. -/
def streakWalk (s : Series) : Int → Nat → Nat
  | _, 0 => 0
  | d, fuel + 1 => if 0 < Series.get s d then streakWalk s (d - 1) fuel + 1 else 0

/-- `calculate_streak_ending_on_date(contributions_data, end_date)`: walk
backward from `end_date` while the count is positive, counting steps.  The
fuel `(number of positive-count entries) + 1` is proved sufficient in
`calculate_streak_spec`. -/
def calculate_streak_ending_on_date (s : Series) (end_date : Int) : Nat :=
  streakWalk s end_date ((s.filter fun p => 0 < p.2).length + 1)

/-- `sorted([d for d, c in daily_contributions.items() if c > 0])`. -/
def dates_with_contributions (s : Series) : List Int :=
  List.insertionSort (· ≤ ·) ((s.filter fun p => 0 < p.2).map Prod.fst)

/-- The scanning loop of `find_longest_streak` (lines 116-137).  `prev` is the
previously visited date, `curLen`/`curStart` the running streak, and
`bestLen`/`bestStart`/`bestEnd` the best streak closed out so far.  On a gap
(and once more after the loop) the running streak replaces the best only on a
strictly greater length, exactly as the source's `>` comparisons. -/
def scanStreaks : Int → Nat → Int → Nat → Option Int → Option Int → List Int →
    Nat × Option Int × Option Int
  | prev, curLen, curStart, bestLen, bestStart, bestEnd, [] =>
    if bestLen < curLen then (curLen, some curStart, some prev)
    else (bestLen, bestStart, bestEnd)
  | prev, curLen, curStart, bestLen, bestStart, bestEnd, d :: rest =>
    if d = prev + 1 then
      scanStreaks d (curLen + 1) curStart bestLen bestStart bestEnd rest
    else if bestLen < curLen then
      scanStreaks d 1 d curLen (some curStart) (some prev) rest
    else
      scanStreaks d 1 d bestLen bestStart bestEnd rest

/-- `find_longest_streak(daily_contributions)`: returns
`(longest_streak, longest_start, longest_end)`.  The source returns
`(0, None, None)` for an empty positive-date list, otherwise it scans with
the first date as the initial one-day running streak. -/
def find_longest_streak (s : Series) : Nat × Option Int × Option Int :=
  match dates_with_contributions s with
  | [] => (0, none, none)
  | d :: rest => scanStreaks d 1 d 0 none none rest

/-- The current-streak block (lines 144-155), with `today` passed explicitly:
anchor on `today` if it has a positive count, else on `yesterday`, else no
current streak; the start date is `anchor - (streak - 1)` days. -/
def current_streak (s : Series) (today : Int) : Nat × Option Int × Option Int :=
  if 0 < Series.get s today then
    (calculate_streak_ending_on_date s today,
      some (today - ((calculate_streak_ending_on_date s today : Int) - 1)),
      some today)
  else if 0 < Series.get s (today - 1) then
    (calculate_streak_ending_on_date s (today - 1),
      some ((today - 1) - ((calculate_streak_ending_on_date s (today - 1) : Int) - 1)),
      some (today - 1))
  else (0, none, none)

/-! Basic facts about `Series.get`. -/

theorem Series.get_nil (d : Int) : Series.get [] d = 0 := rfl

theorem Series.get_cons (k c : Int) (s : Series) (d : Int) :
    Series.get ((k, c) :: s) d = if k = d then c else Series.get s d := by
  by_cases h : k = d
  · simp [Series.get, List.find?, h]
  · simp [Series.get, List.find?, h]

/-- A positive lookup comes from an entry of the series. -/
theorem get_pos_entry {s : Series} {d : Int} (h : 0 < Series.get s d) :
    ∃ p, p ∈ s ∧ p.1 = d ∧ p.2 = Series.get s d := by
  unfold Series.get at h ⊢
  cases hf : s.find? (fun p => p.1 = d) with
  | none => rw [hf] at h; exact absurd h (lt_irrefl 0)
  | some p =>
    refine ⟨p, List.mem_of_find?_eq_some hf, ?_, rfl⟩
    simpa using List.find?_some hf

/-- In a well-formed series the lookup of an entry's key is its count. -/
theorem get_of_entry {s : Series} (hwf : Series.WellFormed s) {p : Int × Int}
    (hp : p ∈ s) : Series.get s p.1 = p.2 := by
  unfold Series.get
  cases hf : s.find? (fun q => q.1 = p.1) with
  | none =>
    rw [List.find?_eq_none] at hf
    have := hf p hp
    simp at this
  | some q =>
    have hq1 : q.1 = p.1 := by simpa using List.find?_some hf
    have hqp : q = p :=
      List.inj_on_of_nodup_map hwf (List.mem_of_find?_eq_some hf) hp hq1
    rw [hqp]

/-! Termination of the backward walk: the dates visited by the loop are
distinct keys of positive-count entries, so there are at most
`(s.filter fun p => 0 < p.2).length` of them. -/

/-- A run of consecutive positive-count dates ending at `d` has at most as
many days as there are positive-count entries. -/
theorem pos_run_length_le (s : Series) (d : Int) (n : Nat)
    (h : ∀ k : Nat, k < n → 0 < Series.get s (d - k)) :
    n ≤ (s.filter fun p => 0 < p.2).length := by
  classical
  set F : Nat → Int × Int :=
    fun k => ((s.find? (fun p => p.1 = (d - k))).getD (0, 0)) with hF
  have hFk : ∀ k : Nat, k < n → F k ∈ s ∧ (F k).1 = d - k ∧ 0 < (F k).2 := by
    intro k hk
    obtain ⟨p, hps, hp1, hp2⟩ := get_pos_entry (h k hk)
    have hfind : s.find? (fun q => q.1 = (d - (k : Int))) ≠ none := by
      intro hnone
      rw [List.find?_eq_none] at hnone
      have := hnone p hps
      simp [hp1] at this
    cases hf : s.find? (fun q => q.1 = (d - (k : Int))) with
    | none => exact absurd hf hfind
    | some q =>
      have hq1 : q.1 = d - k := by simpa using List.find?_some hf
      refine ⟨?_, ?_, ?_⟩
      · simpa [hF, hf] using List.mem_of_find?_eq_some hf
      · simpa [hF, hf] using hq1
      · have : Series.get s (d - k) = q.2 := by
          unfold Series.get; rw [hf]
        simp only [hF, hf, Option.getD_some]
        rw [← this]; exact h k hk
  have hnodup : ((List.range n).map F).Nodup := by
    refine List.Nodup.map_on ?_ (List.nodup_range n)
    intro x hx y hy hxy
    rw [List.mem_range] at hx hy
    have h1 := (hFk x hx).2.1
    have h2 := (hFk y hy).2.1
    rw [hxy, h2] at h1
    omega
  have hsub : ((List.range n).map F) ⊆ (s.filter fun p => 0 < p.2) := by
    intro x hx
    rw [List.mem_map] at hx
    obtain ⟨k, hk, hkx⟩ := hx
    rw [List.mem_range] at hk
    rw [List.mem_filter]
    obtain ⟨h1, _, h3⟩ := hFk k hk
    subst hkx
    exact ⟨h1, by simpa using h3⟩
  have := (List.subperm_of_subset hnodup hsub).length_le
  simpa using this

/-- The walk always reaches a non-positive date. -/
theorem exists_walk_stop (s : Series) (d : Int) :
    ∃ k : Nat, ¬ 0 < Series.get s (d - k) := by
  by_contra hall
  push_neg at hall
  have := pos_run_length_le s d ((s.filter fun p => 0 < p.2).length + 1)
    (fun k _ => hall k)
  omega

/-- With enough fuel, the walk computes the distance to the first
non-positive date. -/
theorem streakWalk_spec (s : Series) :
    ∀ (n : Nat) (d : Int) (fuel : Nat), n < fuel →
      (∀ k : Nat, k < n → 0 < Series.get s (d - k)) →
      ¬ 0 < Series.get s (d - n) →
      streakWalk s d fuel = n := by
  intro n
  induction n with
  | zero =>
    intro d fuel hfuel _ hstop
    cases fuel with
    | zero => omega
    | succ f =>
      have : ¬ 0 < Series.get s d := by simpa using hstop
      simp [streakWalk, this]
  | succ m ih =>
    intro d fuel hfuel hpos hstop
    cases fuel with
    | zero => omega
    | succ f =>
      have hd : 0 < Series.get s d := by simpa using hpos 0 (by omega)
      have hrec : streakWalk s (d - 1) f = m := by
        refine ih (d - 1) f (by omega) ?_ ?_
        · intro k hk
          have := hpos (k + 1) (by omega)
          have he : d - ((k : Int) + 1) = d - 1 - k := by ring
          simpa [he] using this
        · have he : d - ((m : Int) + 1) = d - 1 - m := by ring
          simpa [he] using hstop
      simp [streakWalk, hd, hrec]

/-- Characterisation of `calculate_streak_ending_on_date`: it counts the
consecutive positive-count days ending on `end_date` and stops at the first
non-positive one; the count is at most the number of positive entries. -/
theorem calculate_streak_spec (s : Series) (d : Int) :
    (∀ k : Nat, k < calculate_streak_ending_on_date s d →
      0 < Series.get s (d - k)) ∧
    ¬ 0 < Series.get s (d - (calculate_streak_ending_on_date s d : Int)) ∧
    calculate_streak_ending_on_date s d ≤ (s.filter fun p => 0 < p.2).length := by
  classical
  have hex := exists_walk_stop s d
  set n := Nat.find hex with hn
  have hstop : ¬ 0 < Series.get s (d - n) := Nat.find_spec hex
  have hpos : ∀ k : Nat, k < n → 0 < Series.get s (d - k) := by
    intro k hk
    have := Nat.find_min hex hk
    exact of_not_not this
  have hbound : n ≤ (s.filter fun p => 0 < p.2).length :=
    pos_run_length_le s d n hpos
  have hcalc : calculate_streak_ending_on_date s d = n :=
    streakWalk_spec s n d _ (by omega) hpos hstop
  rw [hcalc]
  exact ⟨hpos, hstop, hbound⟩

/-- The walk's result is determined by its stopping characterisation. -/
theorem calculate_streak_unique (s : Series) (d : Int) (n : Nat)
    (hpos : ∀ k : Nat, k < n → 0 < Series.get s (d - k))
    (hstop : ¬ 0 < Series.get s (d - n)) :
    calculate_streak_ending_on_date s d = n := by
  obtain ⟨hp, hs, _⟩ := calculate_streak_spec s d
  set m := calculate_streak_ending_on_date s d
  rcases lt_trichotomy m n with h | h | h
  · exact absurd (hpos m h) hs
  · exact h
  · exact absurd (hp n h) hstop

/-! Facts about the sorted positive-date list. -/

/-- For a well-formed series, membership in the sorted positive-date list is
exactly "positive count". -/
theorem mem_dates_with_contributions {s : Series} (hwf : Series.WellFormed s)
    (x : Int) : x ∈ dates_with_contributions s ↔ 0 < Series.get s x := by
  unfold dates_with_contributions
  rw [(List.perm_insertionSort _ _).mem_iff, List.mem_map]
  constructor
  · rintro ⟨p, hp, rfl⟩
    rw [List.mem_filter] at hp
    have h2 : (0 : Int) < p.2 := by simpa using hp.2
    have := get_of_entry hwf hp.1
    omega
  · intro hx
    obtain ⟨p, hps, hp1, hp2⟩ := get_pos_entry hx
    refine ⟨p, ?_, hp1⟩
    rw [List.mem_filter]
    exact ⟨hps, by simp; omega⟩

/-- For a well-formed series the positive-date list is strictly sorted. -/
theorem sorted_dates_with_contributions {s : Series} (hwf : Series.WellFormed s) :
    List.Sorted (· < ·) (dates_with_contributions s) := by
  have hle : List.Sorted (· ≤ ·) (dates_with_contributions s) :=
    List.sorted_insertionSort _ _
  have hnodupBase : ((s.filter fun p => 0 < p.2).map Prod.fst).Nodup :=
    List.Nodup.sublist (List.Sublist.map Prod.fst (List.filter_sublist s)) hwf
  have hnodup : (dates_with_contributions s).Nodup := by
    unfold dates_with_contributions
    exact (List.perm_insertionSort _ _).nodup_iff.mpr hnodupBase
  exact (hle.and hnodup).imp fun h => lt_of_le_of_ne h.1 h.2

/-! Specification predicates for the longest-streak scan.  `mem x` stands for
"date `x` has a positive count". -/

/-- `a..b` is a maximal run: `L` consecutive member dates, blocked on both
sides. -/
def GoodRun (mem : Int → Prop) (L : Nat) (a b : Int) : Prop :=
  a ≤ b ∧ (L : Int) = b - a + 1 ∧ (∀ x, a ≤ x → x ≤ b → mem x) ∧
    ¬ mem (a - 1) ∧ ¬ mem (b + 1)

/-- No run of member dates is longer than `L`, and a run of length exactly
`L` starts no earlier than `a`. -/
def Maximal (mem : Int → Prop) (L : Nat) (a : Int) : Prop :=
  ∀ a' b' : Int, a' ≤ b' → (∀ x, a' ≤ x → x ≤ b' → mem x) →
    b' - a' + 1 ≤ (L : Int) ∧ (b' - a' + 1 = (L : Int) → a ≤ a')

/-- Full specification of a `(length, start, end)` result of the
longest-streak computation. -/
def LongestSpec (mem : Int → Prop) (r : Nat × Option Int × Option Int) : Prop :=
  (r.1 = 0 → r.2.1 = none ∧ r.2.2 = none ∧ ∀ x, ¬ mem x) ∧
  (0 < r.1 → ∃ a b, r.2.1 = some a ∧ r.2.2 = some b ∧
    GoodRun mem r.1 a b ∧ Maximal mem r.1 a)

/-- `Maximal`, restricted to runs that end before `bound`. -/
def MaximalBelow (mem : Int → Prop) (bound : Int) (L : Nat) (a : Int) : Prop :=
  ∀ a' b' : Int, a' ≤ b' → b' < bound → (∀ x, a' ≤ x → x ≤ b' → mem x) →
    b' - a' + 1 ≤ (L : Int) ∧ (b' - a' + 1 = (L : Int) → a ≤ a')

/-- Invariant on the best-so-far state of the scan, relative to the start
`bound` of the running streak: either nothing has been closed out (and there
is no member date before `bound`), or the best streak is a maximal run below
`bound`, of maximal length among runs below `bound` and earliest among those
of equal length. -/
def BestInv (mem : Int → Prop) (bound : Int) (bestLen : Nat)
    (bestStart bestEnd : Option Int) : Prop :=
  (bestLen = 0 ∧ bestStart = none ∧ bestEnd = none ∧
    ∀ x, x < bound → ¬ mem x) ∨
  (∃ a b, bestStart = some a ∧ bestEnd = some b ∧ a ≤ b ∧
    (bestLen : Int) = b - a + 1 ∧ (∀ x, a ≤ x → x ≤ b → mem x) ∧
    ¬ mem (a - 1) ∧ ¬ mem (b + 1) ∧ b + 1 < bound ∧
    MaximalBelow mem bound bestLen a)

/-- Correctness of the scanning loop of `find_longest_streak`, by induction
on the remaining date list. -/
theorem scanStreaks_spec (mem : Int → Prop) :
    ∀ (rest : List Int) (prev : Int) (curLen : Nat) (curStart : Int)
      (bestLen : Nat) (bestStart bestEnd : Option Int),
      List.Sorted (· < ·) rest →
      (∀ x : Int, x ∈ rest ↔ mem x ∧ prev < x) →
      1 ≤ curLen →
      curStart = prev + 1 - (curLen : Int) →
      (∀ x, curStart ≤ x → x ≤ prev → mem x) →
      ¬ mem (curStart - 1) →
      BestInv mem curStart bestLen bestStart bestEnd →
      0 < (scanStreaks prev curLen curStart bestLen bestStart bestEnd rest).1 ∧
      LongestSpec mem (scanStreaks prev curLen curStart bestLen bestStart bestEnd rest) := by
  intro rest
  induction rest with
  | nil =>
    intro prev curLen curStart bestLen bestStart bestEnd hsort hmem hcl hcs hrun hopen hbest
    have hub : ∀ x, mem x → x ≤ prev := by
      intro x hx
      by_contra hgt
      exact (List.not_mem_nil x) ((hmem x).mpr ⟨hx, by omega⟩)
    simp only [scanStreaks]
    by_cases hlt : bestLen < curLen
    · rw [if_pos hlt]
      refine ⟨by simpa using hcl, fun h0 => absurd h0 (by simp; omega), fun _ => ?_⟩
      refine ⟨curStart, prev, rfl, rfl, ⟨by omega, by omega, hrun, hopen, ?_⟩, ?_⟩
      · intro hx
        exact absurd (hub _ hx) (by omega)
      · intro a' b' hab' hrun'
        have hbm : mem b' := hrun' b' hab' le_rfl
        have hbp : b' ≤ prev := hub b' hbm
        by_cases hc : b' < curStart
        · rcases hbest with ⟨h0, _, _, hnone⟩ | ⟨a, b, _, _, hab, hlen, _, _, _, hbb, hmax⟩
          · exact absurd hbm (hnone b' hc)
          · have := hmax a' b' hab' hc hrun'
            exact ⟨by omega, by omega⟩
        · have ha' : curStart ≤ a' := by
            by_contra hna
            exact hopen (hrun' (curStart - 1) (by omega) (by omega))
          exact ⟨by omega, fun _ => ha'⟩
    · rw [if_neg hlt]
      rcases hbest with ⟨h0, _, _, _⟩ | ⟨a, b, hS, hE, hab, hlen, hrunb, hao, hbo, hbb, hmax⟩
      · exact absurd hcl (by omega)
      · refine ⟨by simp; omega, fun h0 => absurd h0 (by simp; omega), fun _ => ?_⟩
        refine ⟨a, b, hS, hE, ⟨hab, hlen, hrunb, hao, hbo⟩, ?_⟩
        intro a' b' hab' hrun'
        have hbm : mem b' := hrun' b' hab' le_rfl
        have hbp : b' ≤ prev := hub b' hbm
        by_cases hc : b' < curStart
        · exact hmax a' b' hab' hc hrun'
        · have ha' : curStart ≤ a' := by
            by_contra hna
            exact hopen (hrun' (curStart - 1) (by omega) (by omega))
          exact ⟨by omega, fun _ => by omega⟩
  | cons d rest ih =>
    intro prev curLen curStart bestLen bestStart bestEnd hsort hmem hcl hcs hrun hopen hbest
    have hd : mem d ∧ prev < d := (hmem d).mp (List.mem_cons_self d rest)
    have hsort' : List.Sorted (· < ·) rest := (List.sorted_cons.mp hsort).2
    have hdlt : ∀ x ∈ rest, d < x := (List.sorted_cons.mp hsort).1
    have hmem' : ∀ x : Int, x ∈ rest ↔ mem x ∧ d < x := by
      intro x
      constructor
      · intro hx
        exact ⟨((hmem x).mp (List.mem_cons_of_mem d hx)).1, hdlt x hx⟩
      · rintro ⟨hx1, hx2⟩
        have hx : x ∈ d :: rest := (hmem x).mpr ⟨hx1, by omega⟩
        rcases List.mem_cons.mp hx with h | h
        · omega
        · exact h
    simp only [scanStreaks]
    by_cases hstep : d = prev + 1
    · rw [if_pos hstep]
      refine ih d (curLen + 1) curStart bestLen bestStart bestEnd hsort' hmem'
        (by omega) (by push_cast; omega) ?_ hopen hbest
      intro x h1 h2
      by_cases hx : x ≤ prev
      · exact hrun x h1 hx
      · have hxd : x = d := by omega
        rw [hxd]; exact hd.1
    · rw [if_neg hstep]
      have hgap : prev + 1 < d := by
        rcases hd with ⟨_, h⟩
        omega
      have hnp1 : ¬ mem (prev + 1) := by
        intro hx
        have hmm : prev + 1 ∈ d :: rest := (hmem _).mpr ⟨hx, by omega⟩
        rcases List.mem_cons.mp hmm with h | h
        · omega
        · exact absurd (hdlt _ h) (by omega)
      have hnd1 : ¬ mem (d - 1) := by
        intro hx
        have hmm : d - 1 ∈ d :: rest := (hmem _).mpr ⟨hx, by omega⟩
        rcases List.mem_cons.mp hmm with h | h
        · omega
        · exact absurd (hdlt _ h) (by omega)
      have hrun1 : ∀ x, d ≤ x → x ≤ d → mem x := by
        intro x h1 h2
        have hxd : x = d := le_antisymm h2 h1
        rw [hxd]; exact hd.1
      have hmemled : ∀ x, mem x → x < d → x ≤ prev := by
        intro x hx hxd
        by_contra hgt
        have hmm : x ∈ d :: rest := (hmem _).mpr ⟨hx, by omega⟩
        rcases List.mem_cons.mp hmm with h | h
        · omega
        · exact absurd (hdlt _ h) (by omega)
      by_cases hlt : bestLen < curLen
      · rw [if_pos hlt]
        refine ih d 1 d curLen (some curStart) (some prev) hsort' hmem'
          le_rfl (by push_cast; omega) hrun1 hnd1 ?_
        right
        refine ⟨curStart, prev, rfl, rfl, by omega, by omega, hrun, hopen, hnp1,
          by omega, ?_⟩
        intro a' b' hab' hb' hrun'
        have hbm : mem b' := hrun' b' hab' le_rfl
        have hbp : b' ≤ prev := hmemled b' hbm hb'
        by_cases hc : b' < curStart
        · rcases hbest with ⟨h0, _, _, hnone⟩ | ⟨a, b, _, _, hab, hlen, _, _, _, hbb, hmax⟩
          · exact absurd hbm (hnone b' hc)
          · have := hmax a' b' hab' hc hrun'
            exact ⟨by omega, by omega⟩
        · have ha' : curStart ≤ a' := by
            by_contra hna
            exact hopen (hrun' (curStart - 1) (by omega) (by omega))
          exact ⟨by omega, fun _ => ha'⟩
      · rw [if_neg hlt]
        rcases hbest with ⟨h0, _, _, _⟩ | ⟨a, b, hS, hE, hab, hlen, hrunb, hao, hbo, hbb, hmax⟩
        · exact absurd hcl (by omega)
        · refine ih d 1 d bestLen bestStart bestEnd hsort' hmem'
            le_rfl (by push_cast; omega) hrun1 hnd1 ?_
          right
          refine ⟨a, b, hS, hE, hab, hlen, hrunb, hao, hbo, by omega, ?_⟩
          intro a' b' hab' hb' hrun'
          have hbm : mem b' := hrun' b' hab' le_rfl
          have hbp : b' ≤ prev := hmemled b' hbm hb'
          by_cases hc : b' < curStart
          · exact hmax a' b' hab' hc hrun'
          · have ha' : curStart ≤ a' := by
              by_contra hna
              exact hopen (hrun' (curStart - 1) (by omega) (by omega))
            exact ⟨by omega, fun _ => by omega⟩

/-- Master correctness theorem for `find_longest_streak` on a well-formed
series: the result satisfies `LongestSpec` for the predicate
"positive count". -/
theorem find_longest_streak_spec (s : Series) (hwf : Series.WellFormed s) :
    LongestSpec (fun x => 0 < Series.get s x) (find_longest_streak s) := by
  have hmem := mem_dates_with_contributions hwf
  have hsort := sorted_dates_with_contributions hwf
  cases hls : dates_with_contributions s with
  | nil =>
    have hres : find_longest_streak s = (0, none, none) := by
      simp only [find_longest_streak, hls]
    rw [hres]
    refine ⟨fun _ => ⟨rfl, rfl, ?_⟩, fun h => absurd h (by simp)⟩
    intro x hx
    have := (hmem x).mpr hx
    rw [hls] at this
    exact (List.not_mem_nil x) this
  | cons d0 rest =>
    have hres : find_longest_streak s = scanStreaks d0 1 d0 0 none none rest := by
      simp only [find_longest_streak, hls]
    rw [hls] at hsort
    have hd0 : 0 < Series.get s d0 := by
      exact (hmem d0).mp (by rw [hls]; exact List.mem_cons_self d0 rest)
    have hd0lt : ∀ x ∈ rest, d0 < x := (List.sorted_cons.mp hsort).1
    have hmem' : ∀ x : Int, x ∈ rest ↔ 0 < Series.get s x ∧ d0 < x := by
      intro x
      constructor
      · intro hx
        refine ⟨(hmem x).mp (by rw [hls]; exact List.mem_cons_of_mem d0 hx), hd0lt x hx⟩
      · rintro ⟨hx1, hx2⟩
        have hx : x ∈ d0 :: rest := by rw [← hls]; exact (hmem x).mpr hx1
        rcases List.mem_cons.mp hx with h | h
        · omega
        · exact h
    have hopen : ¬ 0 < Series.get s (d0 - 1) := by
      intro hx
      have hmm : d0 - 1 ∈ d0 :: rest := by rw [← hls]; exact (hmem _).mpr hx
      rcases List.mem_cons.mp hmm with h | h
      · omega
      · exact absurd (hd0lt _ h) (by omega)
    rw [hres]
    refine (scanStreaks_spec (fun x => 0 < Series.get s x) rest d0 1 d0 0 none none
      (List.sorted_cons.mp hsort).2 hmem' le_rfl (by push_cast; omega)
      (fun x h1 h2 => by have hxd : x = d0 := le_antisymm h2 h1; rw [hxd]; exact hd0)
      hopen ?_).2
    left
    refine ⟨rfl, rfl, rfl, ?_⟩
    intro x hx hmx
    have hmm : x ∈ d0 :: rest := by rw [← hls]; exact (hmem _).mpr hmx
    rcases List.mem_cons.mp hmm with h | h
    · omega
    · exact absurd (hd0lt _ h) (by omega)

/-- A `LongestSpec` result is unique: length, start and end are determined by
the membership predicate. -/
theorem LongestSpec_unique (mem : Int → Prop) (r₁ r₂ : Nat × Option Int × Option Int)
    (h₁ : LongestSpec mem r₁) (h₂ : LongestSpec mem r₂) : r₁ = r₂ := by
  rcases r₁ with ⟨L₁, os₁, oe₁⟩
  rcases r₂ with ⟨L₂, os₂, oe₂⟩
  rcases Nat.eq_zero_or_pos L₁ with h0 | hp
  · obtain ⟨hn1, hn2, hnm⟩ := h₁.1 h0
    have h02 : L₂ = 0 := by
      by_contra hne
      obtain ⟨a, b, _, _, ⟨hab, _, hrun, _, _⟩, _⟩ := h₂.2 (by omega)
      exact hnm a (hrun a le_rfl hab)
    obtain ⟨hn3, hn4, _⟩ := h₂.1 h02
    simp only at hn1 hn2 hn3 hn4
    rw [h0, h02, hn1, hn2, hn3, hn4]
  · obtain ⟨a₁, b₁, hs₁, he₁, ⟨hab₁, hlen₁, hrun₁, _, _⟩, hmax₁⟩ := h₁.2 hp
    have hp₂ : 0 < L₂ := by
      by_contra hne
      have h02 : L₂ = 0 := by omega
      exact (h₂.1 h02).2.2 a₁ (hrun₁ a₁ le_rfl hab₁)
    obtain ⟨a₂, b₂, hs₂, he₂, ⟨hab₂, hlen₂, hrun₂, _, _⟩, hmax₂⟩ := h₂.2 hp₂
    have hle₁ := (hmax₂ a₁ b₁ hab₁ hrun₁).1
    have hle₂ := (hmax₁ a₂ b₂ hab₂ hrun₂).1
    have hL : L₁ = L₂ := by omega
    have ha₁₂ := (hmax₂ a₁ b₁ hab₁ hrun₁).2 (by omega)
    have ha₂₁ := (hmax₁ a₂ b₂ hab₂ hrun₂).2 (by omega)
    have ha : a₁ = a₂ := le_antisymm ha₂₁ ha₁₂
    have hb : b₁ = b₂ := by omega
    simp only at hs₁ he₁ hs₂ he₂
    rw [hL, hs₁, hs₂, he₁, he₂, ha, hb]

/-! Further facts about the backward walk. -/

/-- The walk takes at least one step when the anchor has a positive count. -/
theorem calculate_streak_pos {s : Series} {e : Int} (h : 0 < Series.get s e) :
    1 ≤ calculate_streak_ending_on_date s e := by
  obtain ⟨_, hstop, _⟩ := calculate_streak_spec s e
  by_contra hlt
  have h0 : calculate_streak_ending_on_date s e = 0 := by omega
  rw [h0] at hstop
  simp at hstop
  omega

/-- Walking from a positive anchor is one more than walking from the
previous day. -/
theorem calculate_streak_succ (s : Series) (e : Int) (h : 0 < Series.get s e) :
    calculate_streak_ending_on_date s e =
      calculate_streak_ending_on_date s (e - 1) + 1 := by
  obtain ⟨hpos, hstop, _⟩ := calculate_streak_spec s (e - 1)
  refine calculate_streak_unique s e _ ?_ ?_
  · intro k hk
    cases k with
    | zero => simpa using h
    | succ j =>
      have hj := hpos j (by omega)
      have he : e - ((j : Int) + 1) = e - 1 - j := by ring
      simpa [he] using hj
  · have he : e - ((calculate_streak_ending_on_date s (e - 1) : Int) + 1) =
      e - 1 - (calculate_streak_ending_on_date s (e - 1) : Int) := by ring
    push_cast
    rw [he]
    exact hstop

/-- The walk only looks at counts at or before the anchor. -/
theorem calculate_streak_congr (s₁ s₂ : Series) (e : Int)
    (h : ∀ x, x ≤ e → Series.get s₁ x = Series.get s₂ x) :
    calculate_streak_ending_on_date s₁ e = calculate_streak_ending_on_date s₂ e := by
  obtain ⟨hpos, hstop, _⟩ := calculate_streak_spec s₂ e
  refine calculate_streak_unique s₁ e _ ?_ ?_
  · intro k hk
    rw [h (e - k) (by omega)]
    exact hpos k hk
  · rw [h (e - (calculate_streak_ending_on_date s₂ e : Int)) (by omega)]
    exact hstop

/-- Pointwise increasing the positive dates cannot shorten a walk. -/
theorem calculate_streak_mono (s₁ s₂ : Series) (e : Int)
    (h : ∀ x, 0 < Series.get s₁ x → 0 < Series.get s₂ x) :
    calculate_streak_ending_on_date s₁ e ≤ calculate_streak_ending_on_date s₂ e := by
  obtain ⟨hpos₁, _, _⟩ := calculate_streak_spec s₁ e
  obtain ⟨_, hstop₂, _⟩ := calculate_streak_spec s₂ e
  by_contra hlt
  push_neg at hlt
  exact hstop₂ (h _ (hpos₁ _ hlt))

/-- Any run of consecutive positive days ending anywhere is at most the
longest streak. -/
theorem run_le_longest_streak {s : Series} (hwf : Series.WellFormed s)
    (e : Int) (n : Nat) (h : ∀ k : Nat, k < n → 0 < Series.get s (e - k)) :
    n ≤ (find_longest_streak s).1 := by
  rcases Nat.eq_zero_or_pos n with h0 | hp
  · omega
  have spec := find_longest_streak_spec s hwf
  have he : 0 < Series.get s e := by simpa using h 0 hp
  have hL : 0 < (find_longest_streak s).1 := by
    by_contra hz
    have h0 : (find_longest_streak s).1 = 0 := by omega
    exact (spec.1 h0).2.2 e he
  obtain ⟨a, b, _, _, _, hmax⟩ := spec.2 hL
  have hrun : ∀ x, e - (n : Int) + 1 ≤ x → x ≤ e → 0 < Series.get s x := by
    intro x h1 h2
    have hk : ((e - x).toNat : Int) = e - x := Int.toNat_of_nonneg (by omega)
    have hklt : (e - x).toNat < n := by omega
    have := h (e - x).toNat hklt
    have hex : e - ((e - x).toNat : Int) = x := by omega
    rwa [hex] at this
  have := (hmax (e - (n : Int) + 1) e (by omega) hrun).1
  omega

/-- A backward run of `n` positive days ending at `e` makes every date of
the interval `[e - n + 1, e]` positive. -/
theorem run_of_pos_prefix (s : Series) (e : Int) (n : Nat)
    (h : ∀ k : Nat, k < n → 0 < Series.get s (e - k)) :
    ∀ x, e - (n : Int) + 1 ≤ x → x ≤ e → 0 < Series.get s x := by
  intro x h1 h2
  have hk : ((e - x).toNat : Int) = e - x := Int.toNat_of_nonneg (by omega)
  have hklt : (e - x).toNat < n := by omega
  have hx := h (e - x).toNat hklt
  have hex : e - ((e - x).toNat : Int) = x := by omega
  rwa [hex] at hx

/-! Claim theorems. -/

/-- Claim C1: for every finite well-formed series with non-negative counts,
`find_longest_streak` returns the length of the maximal run of consecutive
calendar dates with count > 0 found anywhere in the series: no such run is
longer than the returned length, and when the length is positive the
reported start and end dates delimit a run of exactly that length; when the
series has no positive-count date the result is length 0 with no dates. -/
theorem longest_streak_correct (s : Series) (hwf : Series.WellFormed s)
    (hnn : ∀ p ∈ s, 0 ≤ p.2) :
    (∀ a b : Int, a ≤ b → (∀ x, a ≤ x → x ≤ b → 0 < Series.get s x) →
      b - a + 1 ≤ ((find_longest_streak s).1 : Int)) ∧
    (0 < (find_longest_streak s).1 →
      ∃ a b : Int, (find_longest_streak s).2.1 = some a ∧
        (find_longest_streak s).2.2 = some b ∧ a ≤ b ∧
        ((find_longest_streak s).1 : Int) = b - a + 1 ∧
        ∀ x, a ≤ x → x ≤ b → 0 < Series.get s x) ∧
    ((∀ x : Int, ¬ 0 < Series.get s x) → find_longest_streak s = (0, none, none)) := by
  have spec := find_longest_streak_spec s hwf
  refine ⟨?_, ?_, ?_⟩
  · intro a b hab hrun
    have hL : 0 < (find_longest_streak s).1 := by
      by_contra hz
      have h0 : (find_longest_streak s).1 = 0 := by omega
      exact (spec.1 h0).2.2 a (hrun a le_rfl hab)
    obtain ⟨a0, b0, _, _, _, hmax⟩ := spec.2 hL
    exact (hmax a b hab hrun).1
  · intro hL
    obtain ⟨a, b, hsa, hsb, ⟨hab, hlen, hrun, _, _⟩, _⟩ := spec.2 hL
    exact ⟨a, b, hsa, hsb, hab, hlen, hrun⟩
  · intro hall
    have h0 : (find_longest_streak s).1 = 0 := by
      by_contra hz
      obtain ⟨a, b, _, _, ⟨hab, _, hrun, _, _⟩, _⟩ := spec.2 (by omega)
      exact hall a (hrun a le_rfl hab)
    obtain ⟨h1, h2, _⟩ := spec.1 h0
    rcases hres : find_longest_streak s with ⟨L, os, oe⟩
    rw [hres] at h0 h1 h2
    simp only at h0 h1 h2
    rw [h0, h1, h2]

/-- Witness for C1 on the series `{0 ↦ 1, 1 ↦ 2}`: the run `0..1` bounds the
returned length from below. -/
theorem longest_streak_correct_witness :
    Series.WellFormed [((0 : Int), (1 : Int)), ((1 : Int), (2 : Int))] ∧
    (∀ p ∈ [((0 : Int), (1 : Int)), ((1 : Int), (2 : Int))], 0 ≤ p.2) ∧
    (1 : Int) - 0 + 1 ≤
      ((find_longest_streak [((0 : Int), (1 : Int)), ((1 : Int), (2 : Int))]).1 : Int) :=
  ⟨by decide, by decide,
    (longest_streak_correct [((0 : Int), (1 : Int)), ((1 : Int), (2 : Int))]
      (by decide) (by decide)).1 0 1 (by omega)
      (fun x h1 h2 => by interval_cases x <;> decide)⟩

/-- Claim C5: when every entry of the series has count 0 (in particular for
the empty series, total contributions 0), both the current-streak block and
`find_longest_streak` return length 0 with no dates. -/
theorem zero_series_streaks (s : Series) (t : Int) (hz : ∀ p ∈ s, p.2 = 0) :
    current_streak s t = (0, none, none) ∧
    find_longest_streak s = (0, none, none) := by
  have hget : ∀ x : Int, Series.get s x = 0 := by
    intro x
    unfold Series.get
    cases hf : s.find? (fun p => p.1 = x) with
    | none => rfl
    | some p => exact hz p (List.mem_of_find?_eq_some hf)
  have hfil : ∀ l : Series, (∀ p ∈ l, p.2 = 0) → (l.filter fun p => 0 < p.2) = [] := by
    intro l
    induction l with
    | nil => intro _; rfl
    | cons p l ihl =>
      intro hpl
      rw [List.filter_cons]
      have hp0 : ¬ 0 < p.2 := by rw [hpl p (List.mem_cons_self p l)]; omega
      simp [hp0, ihl fun q hq => hpl q (List.mem_cons_of_mem p hq)]
  constructor
  · have h1 : ¬ 0 < Series.get s t := by rw [hget t]; omega
    have h2 : ¬ 0 < Series.get s (t - 1) := by rw [hget (t - 1)]; omega
    simp only [current_streak, if_neg h1, if_neg h2]
  · have hdates : dates_with_contributions s = [] := by
      unfold dates_with_contributions
      rw [hfil s hz]
      rfl
    simp only [find_longest_streak, hdates]

/-- Witness for C5 on the one-entry zero series `{3 ↦ 0}` with reference
date 3. -/
theorem zero_series_streaks_witness :
    (∀ p ∈ [((3 : Int), (0 : Int))], p.2 = 0) ∧
    current_streak [((3 : Int), (0 : Int))] 3 = (0, none, none) ∧
    find_longest_streak [((3 : Int), (0 : Int))] = (0, none, none) :=
  ⟨by decide,
    (zero_series_streaks [((3 : Int), (0 : Int))] 3 (by decide)).1,
    (zero_series_streaks [((3 : Int), (0 : Int))] 3 (by decide)).2⟩

/-- Claim C6: if neither `today` nor `yesterday` has a positive count, the
current-streak result is length 0 with no dates, regardless of contributions
on earlier dates of the series. -/
theorem current_streak_requires_recent (s : Series) (t : Int)
    (h1 : ¬ 0 < Series.get s t) (h2 : ¬ 0 < Series.get s (t - 1)) :
    current_streak s t = (0, none, none) := by
  simp only [current_streak, if_neg h1, if_neg h2]

/-- Witness for C6 on `{0 ↦ 1}` with reference date 5: an earlier positive
day does not create a current streak. -/
theorem current_streak_requires_recent_witness :
    ¬ 0 < Series.get [((0 : Int), (1 : Int))] 5 ∧
    ¬ 0 < Series.get [((0 : Int), (1 : Int))] (5 - 1) ∧
    current_streak [((0 : Int), (1 : Int))] 5 = (0, none, none) :=
  ⟨by decide, by decide,
    current_streak_requires_recent [((0 : Int), (1 : Int))] 5 (by decide) (by decide)⟩

/-- Claim C8: the backward walk of `calculate_streak_ending_on_date`
terminates on every finite series: the result counts consecutive
positive-count days back from the anchor, stops at the first date with count
0 or absent, takes at most as many steps as there are positive-count entries
in the series, and once the fuel exceeds the result the fuelled loop is
stable (the source's `while` loop exits with this value). -/
theorem backward_walk_terminates (s : Series) (d : Int) :
    (∀ k : Nat, k < calculate_streak_ending_on_date s d →
      0 < Series.get s (d - k)) ∧
    ¬ 0 < Series.get s (d - (calculate_streak_ending_on_date s d : Int)) ∧
    calculate_streak_ending_on_date s d ≤ (s.filter fun p => 0 < p.2).length ∧
    ∀ fuel : Nat, calculate_streak_ending_on_date s d < fuel →
      streakWalk s d fuel = calculate_streak_ending_on_date s d := by
  obtain ⟨hpos, hstop, hbound⟩ := calculate_streak_spec s d
  exact ⟨hpos, hstop, hbound, fun fuel hf => streakWalk_spec s _ d fuel hf hpos hstop⟩

/-- Witness for C8 on `{0 ↦ 1, 1 ↦ 1}` anchored at 1: the step bound holds
and a larger fuel gives the same walk result. -/
theorem backward_walk_terminates_witness :
    calculate_streak_ending_on_date [((0 : Int), (1 : Int)), ((1 : Int), (1 : Int))] 1 ≤
      (([((0 : Int), (1 : Int)), ((1 : Int), (1 : Int))] : Series).filter
        fun p => 0 < p.2).length ∧
    streakWalk [((0 : Int), (1 : Int)), ((1 : Int), (1 : Int))] 1 7 =
      calculate_streak_ending_on_date [((0 : Int), (1 : Int)), ((1 : Int), (1 : Int))] 1 :=
  ⟨(backward_walk_terminates [((0 : Int), (1 : Int)), ((1 : Int), (1 : Int))] 1).2.2.1,
    (backward_walk_terminates [((0 : Int), (1 : Int)), ((1 : Int), (1 : Int))] 1).2.2.2
      7 (by decide)⟩

/-- Claim C2: for every series with non-negative counts and reference date
`today`, the current streak is the maximal run of consecutive positive-count
days ending on `today`, or — when `today` has count 0 but `today - 1` has a
positive count — the maximal such run ending on yesterday, with the reported
end the anchor and the reported start `anchor - (length - 1)`; in particular
the grace-day series `{today-1 ↦ 2, today-2 ↦ 1}` yields length 2 from
`today - 2` to `today - 1`. -/
theorem current_streak_correct (s : Series) (t : Int) (hnn : ∀ p ∈ s, 0 ≤ p.2) :
    (0 < Series.get s t →
      (∀ k : Nat, k < (current_streak s t).1 → 0 < Series.get s (t - k)) ∧
      ¬ 0 < Series.get s (t - ((current_streak s t).1 : Int)) ∧
      (∀ m : Nat, (∀ k : Nat, k < m → 0 < Series.get s (t - k)) →
        m ≤ (current_streak s t).1) ∧
      (current_streak s t).2.1 = some (t - (((current_streak s t).1 : Int) - 1)) ∧
      (current_streak s t).2.2 = some t) ∧
    (¬ 0 < Series.get s t → 0 < Series.get s (t - 1) →
      (∀ k : Nat, k < (current_streak s t).1 → 0 < Series.get s (t - 1 - k)) ∧
      ¬ 0 < Series.get s (t - 1 - ((current_streak s t).1 : Int)) ∧
      (∀ m : Nat, (∀ k : Nat, k < m → 0 < Series.get s (t - 1 - k)) →
        m ≤ (current_streak s t).1) ∧
      (current_streak s t).2.1 = some (t - 1 - (((current_streak s t).1 : Int) - 1)) ∧
      (current_streak s t).2.2 = some (t - 1)) ∧
    (∀ t0 : Int, current_streak [(t0 - 1, 2), (t0 - 2, 1)] t0 =
      (2, some (t0 - 2), some (t0 - 1))) := by
  refine ⟨?_, ?_, ?_⟩
  · intro ht
    simp only [current_streak, if_pos ht]
    obtain ⟨hpos, hstop, _⟩ := calculate_streak_spec s t
    refine ⟨hpos, hstop, ?_, trivial, trivial⟩
    intro m hm
    by_contra hgt
    exact hstop (hm _ (by omega))
  · intro ht hy
    simp only [current_streak, if_neg ht, if_pos hy]
    obtain ⟨hpos, hstop, _⟩ := calculate_streak_spec s (t - 1)
    refine ⟨hpos, hstop, ?_, trivial, trivial⟩
    intro m hm
    by_contra hgt
    exact hstop (hm _ (by omega))
  · intro t0
    have hgets : ∀ x : Int, Series.get [(t0 - 1, 2), (t0 - 2, 1)] x =
        if t0 - 1 = x then 2 else if t0 - 2 = x then 1 else 0 := by
      intro x
      rw [Series.get_cons, Series.get_cons, Series.get_nil]
    have h1 : ¬ 0 < Series.get [(t0 - 1, 2), (t0 - 2, 1)] t0 := by
      rw [hgets]; split_ifs <;> omega
    have h2 : 0 < Series.get [(t0 - 1, 2), (t0 - 2, 1)] (t0 - 1) := by
      rw [hgets]; split_ifs <;> omega
    have hcalc : calculate_streak_ending_on_date [(t0 - 1, 2), (t0 - 2, 1)] (t0 - 1) = 2 := by
      refine calculate_streak_unique _ _ 2 ?_ ?_
      · intro k hk
        rw [hgets]; split_ifs <;> omega
      · rw [hgets]; split_ifs <;> omega
    simp only [current_streak, if_neg h1, if_pos h2, hcalc]
    have hstart : t0 - 1 - (((2 : Nat) : Int) - 1) = t0 - 2 := by push_cast; ring
    rw [hstart]

/-- Witness for C2: the grace-day example at `today = 10`. -/
theorem current_streak_correct_witness :
    current_streak [((10 : Int) - 1, 2), (10 - 2, 1)] 10 = (2, some (10 - 2), some (10 - 1)) :=
  (current_streak_correct [] 0 (by decide)).2.2 10

/-- Claim C3: every result of the current-streak block or of
`find_longest_streak` on a well-formed series satisfies the `StreakResult`
invariant: the length is 0 exactly when both dates are absent, and a
positive length means the dates delimit an interval of `length` consecutive
days all with positive counts. -/
theorem streak_result_invariant (s : Series) (t : Int) (hwf : Series.WellFormed s) :
    (((current_streak s t).1 = 0 ↔
        (current_streak s t).2.1 = none ∧ (current_streak s t).2.2 = none) ∧
      (0 < (current_streak s t).1 →
        ∃ a b : Int, (current_streak s t).2.1 = some a ∧
          (current_streak s t).2.2 = some b ∧
          b - a = ((current_streak s t).1 : Int) - 1 ∧
          ∀ x, a ≤ x → x ≤ b → 0 < Series.get s x)) ∧
    (((find_longest_streak s).1 = 0 ↔
        (find_longest_streak s).2.1 = none ∧ (find_longest_streak s).2.2 = none) ∧
      (0 < (find_longest_streak s).1 →
        ∃ a b : Int, (find_longest_streak s).2.1 = some a ∧
          (find_longest_streak s).2.2 = some b ∧
          b - a = ((find_longest_streak s).1 : Int) - 1 ∧
          ∀ x, a ≤ x → x ≤ b → 0 < Series.get s x)) := by
  constructor
  · by_cases h1 : 0 < Series.get s t
    · simp only [current_streak, if_pos h1]
      obtain ⟨hpos, _, _⟩ := calculate_streak_spec s t
      have hc1 : 1 ≤ calculate_streak_ending_on_date s t := calculate_streak_pos h1
      constructor
      · simp
        omega
      · intro _
        refine ⟨t - ((calculate_streak_ending_on_date s t : Int) - 1), t, rfl, rfl,
          by ring, ?_⟩
        intro x hx1 hx2
        exact run_of_pos_prefix s t _ hpos x (by omega) hx2
    · by_cases h2 : 0 < Series.get s (t - 1)
      · simp only [current_streak, if_neg h1, if_pos h2]
        obtain ⟨hpos, _, _⟩ := calculate_streak_spec s (t - 1)
        have hc1 : 1 ≤ calculate_streak_ending_on_date s (t - 1) := calculate_streak_pos h2
        constructor
        · simp
          omega
        · intro _
          refine ⟨t - 1 - ((calculate_streak_ending_on_date s (t - 1) : Int) - 1), t - 1,
            rfl, rfl, by ring, ?_⟩
          intro x hx1 hx2
          exact run_of_pos_prefix s (t - 1) _ hpos x (by omega) hx2
      · simp only [current_streak, if_neg h1, if_neg h2]
        exact ⟨by simp, fun h => absurd h (by simp)⟩
  · have spec := find_longest_streak_spec s hwf
    constructor
    · constructor
      · intro h0
        exact ⟨(spec.1 h0).1, (spec.1 h0).2.1⟩
      · intro ⟨hn1, _⟩
        by_contra hz
        obtain ⟨a, b, hsa, _, _, _⟩ := spec.2 (by omega)
        rw [hsa] at hn1
        exact Option.some_ne_none a hn1
    · intro hL
      obtain ⟨a, b, hsa, hsb, ⟨hab, hlen, hrun, _, _⟩, _⟩ := spec.2 hL
      exact ⟨a, b, hsa, hsb, by omega, hrun⟩

/-- Witness for C3 on the series `{0 ↦ 1}` with reference date 0. -/
theorem streak_result_invariant_witness :
    Series.WellFormed [((0 : Int), (1 : Int))] ∧
    ((current_streak [((0 : Int), (1 : Int))] 0).1 = 0 ↔
      (current_streak [((0 : Int), (1 : Int))] 0).2.1 = none ∧
      (current_streak [((0 : Int), (1 : Int))] 0).2.2 = none) :=
  ⟨by decide, (streak_result_invariant [((0 : Int), (1 : Int))] 0 (by decide)).1.1⟩

/-- Claim C4: when several runs share the maximal length,
`find_longest_streak` reports the first one in ascending date order (every
run of the maximal length starts no earlier than the reported start); in
particular positive counts at exactly `D, D+1, D+5, D+6` give the result
`(2, D, D+1)`, not the later pair. -/
theorem longest_streak_tiebreak (s : Series) (hwf : Series.WellFormed s) :
    (0 < (find_longest_streak s).1 →
      ∃ a b : Int, (find_longest_streak s).2.1 = some a ∧
        (find_longest_streak s).2.2 = some b ∧
        ∀ a' b' : Int, a' ≤ b' → (∀ x, a' ≤ x → x ≤ b' → 0 < Series.get s x) →
          b' - a' + 1 = ((find_longest_streak s).1 : Int) → a ≤ a') ∧
    (∀ D : Int, find_longest_streak [(D, 1), (D + 1, 1), (D + 5, 1), (D + 6, 1)] =
      (2, some D, some (D + 1))) := by
  constructor
  · intro hL
    obtain ⟨a, b, hsa, hsb, _, hmax⟩ := (find_longest_streak_spec s hwf).2 hL
    refine ⟨a, b, hsa, hsb, ?_⟩
    intro a' b' hab' hrun' hlen'
    exact (hmax a' b' hab' hrun').2 hlen'
  · intro D
    have hfil : (([(D, 1), (D + 1, 1), (D + 5, 1), (D + 6, 1)] : Series).filter
        fun p => 0 < p.2) = [(D, 1), (D + 1, 1), (D + 5, 1), (D + 6, 1)] := by
      norm_num [List.filter_cons]
    have hsorted : List.Sorted (· ≤ ·) [D, D + 1, D + 5, D + 6] := by
      simp [List.sorted_cons]
    have hdates : dates_with_contributions [(D, 1), (D + 1, 1), (D + 5, 1), (D + 6, 1)] =
        [D, D + 1, D + 5, D + 6] := by
      unfold dates_with_contributions
      rw [hfil]
      exact List.Sorted.insertionSort_eq hsorted
    have e2 : (D + 5 = D + 1 + 1) = False := eq_false (by omega)
    have e3 : (D + 6 = D + 5 + 1) = True := eq_true (by omega)
    have e4 : ((0 : Nat) < 1 + 1) = True := eq_true (by omega)
    have e5 : ((1 + 1 : Nat) < 1 + 1) = False := eq_false (by omega)
    simp only [find_longest_streak, hdates, scanStreaks, eq_self_iff_true, e2, e3, e4, e5,
      if_true, if_false]

/-- Witness for C4: the four-date example at `D = 0`. -/
theorem longest_streak_tiebreak_witness :
    find_longest_streak [((0 : Int), (1 : Int)), (0 + 1, 1), (0 + 5, 1), (0 + 6, 1)] =
      (2, some 0, some (0 + 1)) :=
  (longest_streak_tiebreak [((0 : Int), (1 : Int))] (by decide)).2 0

/-- Claim C7: for a series with a maximal streak `a..b`, adding a
positive-count day at `b + 1` (one calendar day after that streak's end)
makes the walk ending on the new day exactly one longer than the walk ending
on `b` — which measures precisely that streak, `b - a + 1` days — and adding
the new positive day never decreases the longest-streak length nor the
current-streak length at any reference date. -/
theorem streak_extension_monotone (s : Series) (a b c : Int)
    (hwf : Series.WellFormed s) (hnew : (b + 1) ∉ s.map Prod.fst) (hc : 0 < c)
    (hab : a ≤ b) (hrun : ∀ x, a ≤ x → x ≤ b → 0 < Series.get s x)
    (hlo : ¬ 0 < Series.get s (a - 1)) (hhi : ¬ 0 < Series.get s (b + 1)) :
    calculate_streak_ending_on_date ((b + 1, c) :: s) (b + 1) =
      calculate_streak_ending_on_date s b + 1 ∧
    (calculate_streak_ending_on_date s b : Int) = b - a + 1 ∧
    (find_longest_streak s).1 ≤ (find_longest_streak ((b + 1, c) :: s)).1 ∧
    ∀ t : Int, (current_streak s t).1 ≤ (current_streak ((b + 1, c) :: s) t).1 := by
  have hagree : ∀ x : Int, x ≤ b → Series.get ((b + 1, c) :: s) x = Series.get s x := by
    intro x hx
    rw [Series.get_cons, if_neg (by omega)]
  have hlift : ∀ x : Int, 0 < Series.get s x → 0 < Series.get ((b + 1, c) :: s) x := by
    intro x hx
    rw [Series.get_cons]
    split_ifs with hbx
    · exact hc
    · exact hx
  have hlen : (calculate_streak_ending_on_date s b : Int) = b - a + 1 := by
    have hn : (((b - a + 1).toNat : Nat) : Int) = b - a + 1 :=
      Int.toNat_of_nonneg (by omega)
    have hun : calculate_streak_ending_on_date s b = (b - a + 1).toNat := by
      refine calculate_streak_unique s b _ ?_ ?_
      · intro k hk
        exact hrun (b - k) (by omega) (by omega)
      · have hba : b - (((b - a + 1).toNat : Nat) : Int) = a - 1 := by omega
        rw [hba]
        exact hlo
    rw [hun, hn]
  refine ⟨?_, hlen, ?_, ?_⟩
  · have hb1 : 0 < Series.get ((b + 1, c) :: s) (b + 1) := by
      rw [Series.get_cons, if_pos rfl]
      exact hc
    have hsucc := calculate_streak_succ ((b + 1, c) :: s) (b + 1) hb1
    have hb11 : b + 1 - 1 = b := by ring
    rw [hb11] at hsucc
    have hcongr := calculate_streak_congr ((b + 1, c) :: s) s b fun x hx => hagree x hx
    omega
  · have hwf2 : Series.WellFormed ((b + 1, c) :: s) := List.nodup_cons.mpr ⟨hnew, hwf⟩
    rcases Nat.eq_zero_or_pos (find_longest_streak s).1 with h0 | hL
    · omega
    obtain ⟨a0, b0, _, _, ⟨hab0, hlen0, hrun0, _, _⟩, _⟩ :=
      (find_longest_streak_spec s hwf).2 hL
    refine run_le_longest_streak hwf2 b0 _ ?_
    intro k hk
    exact hlift _ (hrun0 (b0 - k) (by omega) (by omega))
  · intro t
    by_cases h1 : 0 < Series.get s t
    · have h1l : 0 < Series.get ((b + 1, c) :: s) t := hlift t h1
      simp only [current_streak, if_pos h1, if_pos h1l]
      exact calculate_streak_mono s _ t hlift
    · by_cases h2 : 0 < Series.get s (t - 1)
      · have h2l : 0 < Series.get ((b + 1, c) :: s) (t - 1) := hlift _ h2
        by_cases h1l : 0 < Series.get ((b + 1, c) :: s) t
        · simp only [current_streak, if_neg h1, if_pos h2, if_pos h1l]
          have hsucc := calculate_streak_succ ((b + 1, c) :: s) t h1l
          have hmono := calculate_streak_mono s ((b + 1, c) :: s) (t - 1) hlift
          omega
        · simp only [current_streak, if_neg h1, if_pos h2, if_neg h1l, if_pos h2l]
          exact calculate_streak_mono s _ (t - 1) hlift
      · simp only [current_streak, if_neg h1, if_neg h2]
        exact Nat.zero_le _

/-- Witness for C7: the streak `0..0` of `{0 ↦ 1}` extended with a
contribution on day 1. -/
theorem streak_extension_monotone_witness :
    0 < (1 : Int) ∧
    calculate_streak_ending_on_date (((0 : Int) + 1, (1 : Int)) :: [((0 : Int), (1 : Int))])
        (0 + 1) =
      calculate_streak_ending_on_date [((0 : Int), (1 : Int))] 0 + 1 :=
  ⟨by decide,
    (streak_extension_monotone [((0 : Int), (1 : Int))] 0 0 1 (by decide) (by decide)
      (by decide) (by omega)
      (fun x h1 h2 => by have hx : x = 0 := le_antisymm h2 h1; rw [hx]; decide)
      (by decide) (by decide)).1⟩

/-- Claim C9: both operations are deterministic functions of the series
viewed as a date-to-count mapping and of the reference date: two
representations of the same mapping (in particular, the same dict read
twice, in any iteration order) give identical current-streak and
longest-streak results.  In this embedding both operations are pure
functions, so no invocation can change any entry of the input series. -/
theorem streak_ops_deterministic (s₁ s₂ : Series) (t : Int)
    (h₁ : Series.WellFormed s₁) (h₂ : Series.WellFormed s₂)
    (h : ∀ x : Int, Series.get s₁ x = Series.get s₂ x) :
    current_streak s₁ t = current_streak s₂ t ∧
    find_longest_streak s₁ = find_longest_streak s₂ := by
  have hcalc : ∀ e : Int, calculate_streak_ending_on_date s₁ e =
      calculate_streak_ending_on_date s₂ e :=
    fun e => calculate_streak_congr s₁ s₂ e fun x _ => h x
  constructor
  · simp only [current_streak, h, hcalc]
  · have hpred : (fun x => 0 < Series.get s₁ x) = (fun x => 0 < Series.get s₂ x) :=
      funext fun x => by rw [h x]
    have spec₁ := find_longest_streak_spec s₁ h₁
    rw [hpred] at spec₁
    exact LongestSpec_unique _ _ _ spec₁ (find_longest_streak_spec s₂ h₂)

/-- Witness for C9: two different orderings of the dict `{0 ↦ 1, 1 ↦ 2}`
give identical results. -/
theorem streak_ops_deterministic_witness :
    Series.WellFormed [((0 : Int), (1 : Int)), (1, 2)] ∧
    Series.WellFormed [((1 : Int), (2 : Int)), (0, 1)] ∧
    current_streak [((0 : Int), (1 : Int)), (1, 2)] 1 =
      current_streak [((1 : Int), (2 : Int)), (0, 1)] 1 ∧
    find_longest_streak [((0 : Int), (1 : Int)), (1, 2)] =
      find_longest_streak [((1 : Int), (2 : Int)), (0, 1)] := by
  refine ⟨by decide, by decide, ?_, ?_⟩
  · exact (streak_ops_deterministic [((0 : Int), (1 : Int)), (1, 2)]
      [((1 : Int), (2 : Int)), (0, 1)] 1 (by decide) (by decide)
      (fun x => by simp only [Series.get_cons, Series.get_nil]; split_ifs <;> omega)).1
  · exact (streak_ops_deterministic [((0 : Int), (1 : Int)), (1, 2)]
      [((1 : Int), (2 : Int)), (0, 1)] 1 (by decide) (by decide)
      (fun x => by simp only [Series.get_cons, Series.get_nil]; split_ifs <;> omega)).2

/-- Claim C10: for every well-formed series with non-negative counts and
every reference date, the current-streak length is at most the
longest-streak length: the backward walk from the anchor is a run of
consecutive positive-count dates, hence one of the runs the longest-streak
scan considers. -/
theorem current_streak_le_longest (s : Series) (t : Int)
    (hwf : Series.WellFormed s) (hnn : ∀ p ∈ s, 0 ≤ p.2) :
    (current_streak s t).1 ≤ (find_longest_streak s).1 := by
  by_cases h1 : 0 < Series.get s t
  · simp only [current_streak, if_pos h1]
    obtain ⟨hpos, _, _⟩ := calculate_streak_spec s t
    exact run_le_longest_streak hwf t _ hpos
  · by_cases h2 : 0 < Series.get s (t - 1)
    · simp only [current_streak, if_neg h1, if_pos h2]
      obtain ⟨hpos, _, _⟩ := calculate_streak_spec s (t - 1)
      exact run_le_longest_streak hwf (t - 1) _ hpos
    · simp only [current_streak, if_neg h1, if_neg h2]
      exact Nat.zero_le _

/-- Witness for C10 on `{0 ↦ 2}` with reference date 0. -/
theorem current_streak_le_longest_witness :
    Series.WellFormed [((0 : Int), (2 : Int))] ∧
    (∀ p ∈ [((0 : Int), (2 : Int))], 0 ≤ p.2) ∧
    (current_streak [((0 : Int), (2 : Int))] 0).1 ≤
      (find_longest_streak [((0 : Int), (2 : Int))]).1 :=
  ⟨by decide, by decide,
    current_streak_le_longest [((0 : Int), (2 : Int))] 0 (by decide) (by decide)⟩

end GitTracker
